import Mathlib

/-!
Verification of the syukei-san vote application (src/app.js) against its
natural-language specification.

The Express routing file src/app.js is embedded shallowly.  The helper
library files (libs/vote_data.js, libs/shemes.js, ...) are not part of the
sources available here, so the operations they provide (vote, sortData,
isVoted, filePath, the validation scheme) are modelled from the spec; each
such definition carries a doc comment saying so.  Everything taken from
src/app.js (the option normalization pipeline, the control flow of the
POST /create and POST /result/:id/ handlers) is translated directly from
the JavaScript.
-/

namespace Syukei

/-- Splitting a string on the regular expression \r?\n, as performed by
`sanitizedData.data.split(/\r?\n/)` in src/app.js line 113.  The split
consumes each newline together with one optional carriage return
immediately before it. -/
def splitLinesAux : List Char → List Char → List String
  | [], acc => [String.mk acc.reverse]
  | '\n' :: rest, acc =>
    (match acc with
     | '\r' :: t => String.mk t.reverse
     | _ => String.mk acc.reverse) :: splitLinesAux rest []
  | c :: rest, acc => splitLinesAux rest (c :: acc)

def splitLines (s : String) : List String :=
  splitLinesAux s.data []

/-- JavaScript Array.prototype.indexOf on an array of strings: index of the
first strictly-equal element, -1 when absent. -/
def jsIndexOf (a : String) : List String → Int
  | [] => -1
  | x :: xs =>
    if x = a then 0
    else if jsIndexOf a xs = -1 then -1 else jsIndexOf a xs + 1

/-- The filter callback `(elem, index, self) => self.indexOf(elem) === index`
of src/app.js line 114, iterating over the list with its running index while
`orig` stays the whole array being filtered. -/
def jsUniqueFilterAux (orig : List String) : List String → Int → List String
  | [], _ => []
  | x :: xs, i =>
    if jsIndexOf x orig = i then x :: jsUniqueFilterAux orig xs (i + 1)
    else jsUniqueFilterAux orig xs (i + 1)

def jsUniqueFilter (l : List String) : List String :=
  jsUniqueFilterAux l l 0

/-- The full normalization of the submitted options in src/app.js lines
112-114: split on newlines, drop falsy (empty) lines, keep an element only
at the index of its first occurrence. -/
def normalize (s : String) : List String :=
  jsUniqueFilter ((splitLines s).filter (fun v => v ≠ ""))

/-- Deduplication keeping the first occurrence of each element: an element
is kept exactly when it has not been seen before it. -/
def firstOccs : List String → List String → List String
  | [], _ => []
  | x :: xs, seen =>
    if x ∈ seen then firstOccs xs seen
    else x :: firstOccs xs (x :: seen)

/-- Restatement of the spec words for the stored option list: the
newline-separated options with blank lines removed and duplicates removed,
keeping the first occurrence of each option so insertion order is
preserved. -/
def specNormalize (s : String) : List String :=
  firstOccs ((splitLines s).filter (fun v => v ≠ "")) []

/-- A poll document as written to disk by src/app.js: the sanitized name,
the normalized option list, the creation timestamp, and the option tallies
(an association list, empty meaning the votes object is absent, as it is
until the first vote). -/
structure Poll where
  name : String
  data : List String
  created_at : Nat
  votes : List (String × Nat)
deriving DecidableEq, Repr

/-- Tally read-out: the count stored for an option, zero when the option
has no entry yet. -/
def lookupTally (votes : List (String × Nat)) (k : String) : Nat :=
  match votes with
  | [] => 0
  | (a, n) :: rest => if a = k then n else lookupTally rest k

/-- Increment of one option's tally inside the association list, appending
a fresh entry with count 1 when the option has no entry yet. -/
def incrTally (votes : List (String × Nat)) (k : String) : List (String × Nat) :=
  match votes with
  | [] => [(k, 1)]
  | (a, n) :: rest =>
    if a = k then (a, n + 1) :: rest else (a, n) :: incrTally rest k

/-- Modelled from the spec: the vote aggregator of libs/vote_data.js is not
in src/.  Per the spec, vote(poll, optionKey) increments the tally for
optionKey by one (creating the entry if absent) only if optionKey is one of
the poll's known options; otherwise the vote is silently ignored without
error. -/
def vote (p : Poll) (key : String) : Poll :=
  if key ∈ p.data then { p with votes := incrTally p.votes key } else p

/-- One option's row of the result table: the option together with its
current tally. -/
def countPairs (p : Poll) : List (String × Nat) :=
  p.data.map (fun o => (o, lookupTally p.votes o))

/-- Insertion of a row into a descending-sorted accumulator: the new row
goes after every row whose count is at least as large, so rows processed
earlier (earlier in the original option order) stay in front on ties. -/
def insertDesc (x : String × Nat) : List (String × Nat) → List (String × Nat)
  | [] => [x]
  | y :: ys => if x.2 ≤ y.2 then y :: insertDesc x ys else x :: y :: ys

def sortPairsDesc (l : List (String × Nat)) : List (String × Nat) :=
  l.foldl (fun acc x => insertDesc x acc) []

/-- Modelled from the spec: sortData of libs/vote_data.js is not in src/.
Per the spec, sortData(poll) returns the ordered sequence of
(option, count) pairs, descending by count, with a stable tie-break on the
original option order. -/
def sortData (p : Poll) : List (String × Nat) :=
  sortPairsDesc (countPairs p)

/-- Descending order on the counts of a row list. -/
def SortedDesc (l : List (String × Nat)) : Prop :=
  l.Pairwise (fun a b => b.2 ≤ a.2)

/-- Modelled from the spec: the Identifier/Path Resolver of
libs/vote_data.js is not in src/.  The poll data lives under this fixed
directory. -/
def dirPath : String := "data"

/-- Modelled from the spec: deterministic file path of a poll id under the
data directory (libs/vote_data.js filePath is not in src/). -/
def filePath (id : String) : String := dirPath ++ "/" ++ id ++ ".json"

/-- Modelled from the spec: the Uniqueness Guard of libs/vote_data.js is
not in src/.  hasVoted checks the request cookies for a per-poll marker
cookie; cookies are modelled as the list of per-poll marker names present,
a marker being the poll id. -/
def isVoted (cookies : List String) (pollId : String) : Bool :=
  cookies.contains pollId

/-- The request data the POST /result/:id/ handler reads: the cookies sent
by the browser and the form-encoded key field. -/
structure ResultRequest where
  cookies : List String
  key : String
deriving DecidableEq, Repr

/-- The observable outcome of the POST /result/:id/ handler. -/
inductive Response where
  | redirect (location : String)
  | renderResult (rows : List (String × Nat)) (name : String)
deriving DecidableEq, Repr

/-- The poll files on disk, as an association list from poll id to the
stored document. -/
abbrev Store := List (String × Poll)

def findPoll (store : Store) (id : String) : Option Poll :=
  match store with
  | [] => none
  | (a, p) :: rest => if a = id then some p else findPoll rest id

def setPoll (store : Store) (id : String) (p : Poll) : Store :=
  match store with
  | [] => []
  | (a, q) :: rest =>
    if a = id then (a, p) :: rest else (a, q) :: setPoll rest id p

/-- Outcome of one POST /result/:id/ request: the store after the request,
the per-poll uniqueness cookies newly set on the response, and the HTTP
response. -/
structure ResultOutcome where
  store : Store
  setCookies : List String
  response : Response
deriving DecidableEq, Repr

/-- The POST /result/:id/ handler of src/app.js lines 150-169: when the
per-poll uniqueness cookie is present the handler returns a redirect to the
voting form with is_voted=1 and touches nothing else (in particular vote is
never invoked, so the store comes back untouched); otherwise it sets the
uniqueness cookie, applies the vote to the stored poll, persists it, and
renders the result view from the updated poll.  none models the request
erroring because the poll file cannot be loaded. -/
def postResult (store : Store) (id : String) (req : ResultRequest) :
    Option ResultOutcome :=
  if isVoted req.cookies id then
    some ⟨store, [], Response.redirect ("/form/" ++ id ++ "/?is_voted=1")⟩
  else
    match findPoll store id with
    | none => none
    | some p =>
      some ⟨setPoll store id (vote p req.key), [id],
        Response.renderResult (sortData (vote p req.key)) (vote p req.key).name⟩

/-- The form-encoded body of a POST /create request after the sanitizer
ran: the poll name and the newline-separated option text. -/
structure CreateBody where
  name : String
  data : String
deriving DecidableEq, Repr

/-- Modelled from the spec: the validation scheme of libs/shemes.js applied
through value-schema in src/app.js lines 92-95 is not in src/.  Per the
spec, create fails with ValidationError if options are empty after
normalization or required fields are missing; the result is the list of
error messages collected for the session. -/
def validateCreate (b : CreateBody) : List String :=
  (if b.name = "" then ["name is required"] else []) ++
  (if normalize b.data = [] then ["data must contain an option"] else [])

/-- One observable step of the POST /create handler, in the order the
handler performs them. -/
inductive CreateEvent where
  | setSessionError (msgs : List String) (body : CreateBody)
  | clearSession
  | mkdirData (dir : String)
  | writeFile (path : String) (content : Poll)
  | redirect (location : String)
deriving DecidableEq, Repr

/-- The POST /create handler of src/app.js lines 87-124, as the sequence
of observable steps it performs: on validation errors it stores the
messages and the submitted body in the session and redirects back, before
any filesystem operation; otherwise it clears the session, creates the
data directory, writes the normalized poll document with the creation
timestamp, and redirects to the new voting form. -/
def postCreate (b : CreateBody) (newId : String) (now : Nat) :
    List CreateEvent :=
  if validateCreate b = [] then
    [CreateEvent.clearSession,
     CreateEvent.mkdirData dirPath,
     CreateEvent.writeFile (filePath newId)
       ⟨b.name, normalize b.data, now, []⟩,
     CreateEvent.redirect ("/form/" ++ newId ++ "/")]
  else
    [CreateEvent.setSessionError (validateCreate b) b,
     CreateEvent.redirect "/#container"]

/-- The transient session contents used to echo validation errors and the
resubmitted form values back to the creation form. -/
structure SessionData where
  errorMessages : List String
  body : CreateBody
deriving DecidableEq, Repr

/-- The session resulting from replaying the handler's steps over an
initial session: storing errors overwrites it, clearing sets it to null. -/
def sessionAfter : List CreateEvent → Option SessionData → Option SessionData
  | [], s => s
  | CreateEvent.setSessionError m b :: rest, _ => sessionAfter rest (some ⟨m, b⟩)
  | CreateEvent.clearSession :: rest, _ => sessionAfter rest none
  | CreateEvent.mkdirData _ :: rest, s => sessionAfter rest s
  | CreateEvent.writeFile _ _ :: rest, s => sessionAfter rest s
  | CreateEvent.redirect _ :: rest, s => sessionAfter rest s

def isFsEvent : CreateEvent → Bool
  | CreateEvent.mkdirData _ => true
  | CreateEvent.writeFile _ _ => true
  | _ => false

def isWriteEvent : CreateEvent → Bool
  | CreateEvent.writeFile _ _ => true
  | _ => false

/-- Contents of one file in the poll data directory: either a parseable
poll document or bytes that do not parse. -/
inductive FileContent where
  | pollFile (p : Poll)
  | corrupt
deriving DecidableEq, Repr

/-- The error taxonomy of the spec for loading a poll. -/
inductive LoadError where
  | notFound
  | corruptData
deriving DecidableEq, Repr

/-- The filesystem under the data directory, path to contents. -/
abbrev FileSys := List (String × FileContent)

def readFile (fs : FileSys) (pth : String) : Option FileContent :=
  match fs with
  | [] => none
  | (a, c) :: rest => if a = pth then some c else readFile rest pth

/-- Modelled from the spec: Vote Store load(id) of libs/vote_data.js is not
in src/.  It reads and parses the poll file at the id's derived path (as
the readFileSync + JSON.parse in src/app.js line 134 does): NotFound when
the file is absent, CorruptData when it is present but does not parse. -/
def load (fs : FileSys) (id : String) : Except LoadError Poll :=
  match readFile fs (filePath id) with
  | none => Except.error LoadError.notFound
  | some FileContent.corrupt => Except.error LoadError.corruptData
  | some (FileContent.pollFile p) => Except.ok p

/-- The invariant of §3 of the spec on one poll document: option strings
are pairwise distinct and every tallied key is a known option. -/
def PollInv (p : Poll) : Prop :=
  p.data.Nodup ∧ ∀ e ∈ p.votes, e.1 ∈ p.data

instance (p : Poll) : Decidable (PollInv p) := by
  unfold PollInv
  exact instDecidableAnd

/-- A concrete poll used as input for witnesses: tallies A:2, B:5, C:2 over
original option order [A, B, C]. -/
def samplePoll : Poll :=
  ⟨"fav", ["A", "B", "C"], 0, [("A", 2), ("B", 5), ("C", 2)]⟩

theorem jsIndexOf_cons_pos {a x : String} (hx : x = a) (l : List String) :
    jsIndexOf a (x :: l) = 0 := by
  simp [jsIndexOf, hx]

theorem jsIndexOf_cons_neg {a x : String} (hx : x ≠ a) (l : List String) :
    jsIndexOf a (x :: l) =
      if jsIndexOf a l = -1 then -1 else jsIndexOf a l + 1 := by
  simp [jsIndexOf, hx]

theorem jsIndexOf_nonneg_of_mem {a : String} {l : List String} (h : a ∈ l) :
    0 ≤ jsIndexOf a l ∧ jsIndexOf a l < l.length := by
  induction l with
  | nil => cases h
  | cons x xs ih =>
    by_cases hx : x = a
    · rw [jsIndexOf_cons_pos hx]
      constructor
      · omega
      · simp only [List.length_cons]
        push_cast
        omega
    · have hmem : a ∈ xs := by
        cases h with
        | head => exact absurd rfl hx
        | tail _ h2 => exact h2
      have ⟨h0, hlt⟩ := ih hmem
      have hne : jsIndexOf a xs ≠ -1 := by omega
      rw [jsIndexOf_cons_neg hx, if_neg hne]
      simp only [List.length_cons]
      push_cast
      omega

theorem jsIndexOf_append_of_mem {a : String} {pre : List String}
    (h : a ∈ pre) (rest : List String) :
    jsIndexOf a (pre ++ rest) = jsIndexOf a pre := by
  induction pre with
  | nil => cases h
  | cons x xs ih =>
    rw [List.cons_append]
    by_cases hx : x = a
    · rw [jsIndexOf_cons_pos hx, jsIndexOf_cons_pos hx]
    · have hmem : a ∈ xs := by
        cases h with
        | head => exact absurd rfl hx
        | tail _ h2 => exact h2
      have ⟨h0, _⟩ := jsIndexOf_nonneg_of_mem hmem
      have hne : jsIndexOf a xs ≠ -1 := by omega
      have ⟨h0app, _⟩ := jsIndexOf_nonneg_of_mem (l := xs ++ rest)
        (List.mem_append_left rest hmem)
      have hneapp : jsIndexOf a (xs ++ rest) ≠ -1 := by omega
      rw [jsIndexOf_cons_neg hx, jsIndexOf_cons_neg hx, if_neg hne,
        if_neg hneapp, ih hmem]

theorem jsIndexOf_append_head {a : String} {pre : List String}
    (h : a ∉ pre) (rest : List String) :
    jsIndexOf a (pre ++ a :: rest) = (pre.length : Int) := by
  induction pre with
  | nil => simp [jsIndexOf]
  | cons x xs ih =>
    have hx : x ≠ a := fun hxa => h (hxa ▸ List.mem_cons_self x xs)
    have hxs : a ∉ xs := fun hm => h (List.mem_cons_of_mem x hm)
    have hrec := ih hxs
    have hpos : (0 : Int) ≤ (xs.length : Int) := by positivity
    have hne : jsIndexOf a (xs ++ a :: rest) ≠ -1 := by
      rw [hrec]; omega
    rw [List.cons_append, jsIndexOf_cons_neg hx, if_neg hne, hrec]
    simp only [List.length_cons]
    push_cast
    ring

theorem firstOccs_congr {s t : List String} (h : ∀ a, a ∈ s ↔ a ∈ t) :
    ∀ xs, firstOccs xs s = firstOccs xs t := by
  intro xs
  induction xs generalizing s t with
  | nil => rfl
  | cons x xs ih =>
    by_cases hx : x ∈ s
    · have hxt : x ∈ t := (h x).mp hx
      simp only [firstOccs, if_pos hx, if_pos hxt]
      exact ih h
    · have hxt : x ∉ t := fun hm => hx ((h x).mpr hm)
      simp only [firstOccs, if_neg hx, if_neg hxt]
      refine congrArg (x :: ·) (ih ?_)
      intro a
      simp only [List.mem_cons]
      exact or_congr Iff.rfl (h a)

theorem jsUniqueFilterAux_eq_firstOccs (xs : List String) :
    ∀ pre : List String,
      jsUniqueFilterAux (pre ++ xs) xs (pre.length : Int) = firstOccs xs pre := by
  induction xs with
  | nil => intro pre; rfl
  | cons x xs ih =>
    intro pre
    have hsplit : pre ++ x :: xs = (pre ++ [x]) ++ xs := by simp
    have hlen : (pre.length : Int) + 1 = ((pre ++ [x]).length : Int) := by
      simp
    by_cases hx : x ∈ pre
    · have hidx : jsIndexOf x (pre ++ x :: xs) = jsIndexOf x pre :=
        jsIndexOf_append_of_mem hx (x :: xs)
      have hlt : jsIndexOf x pre < (pre.length : Int) :=
        (jsIndexOf_nonneg_of_mem hx).2
      have hcond : ¬ jsIndexOf x (pre ++ x :: xs) = (pre.length : Int) := by
        rw [hidx]; omega
      simp only [jsUniqueFilterAux, if_neg hcond, firstOccs, if_pos hx]
      rw [hlen]
      conv_lhs => rw [hsplit]
      rw [ih (pre ++ [x])]
      refine firstOccs_congr ?_ xs
      intro a
      simp only [List.mem_append, List.mem_singleton]
      constructor
      · rintro (ha | ha)
        · exact ha
        · exact ha ▸ hx
      · intro ha; exact Or.inl ha
    · have hcond : jsIndexOf x (pre ++ x :: xs) = (pre.length : Int) :=
        jsIndexOf_append_head hx xs
      simp only [jsUniqueFilterAux, if_pos hcond, firstOccs, if_neg hx]
      rw [hlen]
      conv_lhs => rw [hsplit]
      rw [ih (pre ++ [x])]
      refine congrArg (x :: ·) (firstOccs_congr ?_ xs)
      intro a
      simp only [List.mem_append, List.mem_singleton, List.mem_cons]
      tauto

theorem jsUniqueFilter_eq_firstOccs (l : List String) :
    jsUniqueFilter l = firstOccs l [] := by
  have h := jsUniqueFilterAux_eq_firstOccs l []
  simpa [jsUniqueFilter] using h

theorem normalize_eq_specNormalize (s : String) :
    normalize s = specNormalize s := by
  unfold normalize specNormalize
  exact jsUniqueFilter_eq_firstOccs _

theorem mem_firstOccs {a : String} :
    ∀ {l seen : List String}, a ∈ firstOccs l seen → a ∈ l ∧ a ∉ seen := by
  intro l
  induction l with
  | nil => intro seen h; cases h
  | cons x xs ih =>
    intro seen h
    by_cases hx : x ∈ seen
    · rw [firstOccs, if_pos hx] at h
      have ⟨h1, h2⟩ := ih h
      exact ⟨List.mem_cons_of_mem x h1, h2⟩
    · rw [firstOccs, if_neg hx] at h
      rcases List.mem_cons.mp h with h1 | h1
      · exact ⟨h1 ▸ List.mem_cons_self x xs, h1 ▸ hx⟩
      · have ⟨h2, h3⟩ := ih h1
        exact ⟨List.mem_cons_of_mem x h2,
          fun hs => h3 (List.mem_cons_of_mem x hs)⟩

theorem firstOccs_nodup : ∀ (l seen : List String), (firstOccs l seen).Nodup := by
  intro l
  induction l with
  | nil => intro seen; exact List.nodup_nil
  | cons x xs ih =>
    intro seen
    by_cases hx : x ∈ seen
    · rw [firstOccs, if_pos hx]
      exact ih seen
    · rw [firstOccs, if_neg hx]
      refine List.nodup_cons.mpr ⟨?_, ih (x :: seen)⟩
      intro hmem
      exact (mem_firstOccs hmem).2 (List.mem_cons_self x seen)

theorem normalize_nodup (s : String) : (normalize s).Nodup := by
  rw [normalize, jsUniqueFilter_eq_firstOccs]
  exact firstOccs_nodup _ _

theorem lookupTally_incrTally_self (votes : List (String × Nat)) (k : String) :
    lookupTally (incrTally votes k) k = lookupTally votes k + 1 := by
  induction votes with
  | nil => simp [incrTally, lookupTally]
  | cons e rest ih =>
    obtain ⟨a, n⟩ := e
    by_cases ha : a = k
    · simp [incrTally, lookupTally, ha]
    · simp only [incrTally, if_neg ha, lookupTally, ih]

theorem lookupTally_incrTally_other (votes : List (String × Nat))
    {k k2 : String} (h : k2 ≠ k) :
    lookupTally (incrTally votes k) k2 = lookupTally votes k2 := by
  have hk : k ≠ k2 := fun he => h he.symm
  induction votes with
  | nil => simp [incrTally, lookupTally, hk]
  | cons e rest ih =>
    obtain ⟨a, n⟩ := e
    by_cases ha : a = k
    · have ha2 : a ≠ k2 := by rw [ha]; exact hk
      simp only [incrTally, if_pos ha, lookupTally, if_neg ha2]
    · by_cases ha2 : a = k2
      · simp only [incrTally, if_neg ha, lookupTally, if_pos ha2]
      · simp only [incrTally, if_neg ha, lookupTally, if_neg ha2, ih]

theorem mem_incrTally {votes : List (String × Nat)} {k : String}
    {e : String × Nat} (h : e ∈ incrTally votes k) :
    e.1 = k ∨ ∃ n, (e.1, n) ∈ votes := by
  induction votes with
  | nil =>
    simp only [incrTally, List.mem_singleton] at h
    exact Or.inl (congrArg Prod.fst h)
  | cons f rest ih =>
    obtain ⟨a, n⟩ := f
    by_cases ha : a = k
    · rw [incrTally, if_pos ha] at h
      rcases List.mem_cons.mp h with h1 | h1
      · exact Or.inl ((congrArg Prod.fst h1).trans ha)
      · exact Or.inr ⟨e.2, List.mem_cons_of_mem _ (by simpa using h1)⟩
    · rw [incrTally, if_neg ha] at h
      rcases List.mem_cons.mp h with h1 | h1
      · exact Or.inr ⟨n, by rw [h1]; exact List.mem_cons_self _ _⟩
      · rcases ih h1 with h2 | ⟨m, h2⟩
        · exact Or.inl h2
        · exact Or.inr ⟨m, List.mem_cons_of_mem _ h2⟩

theorem mem_insertDesc {x a : String × Nat} :
    ∀ {l : List (String × Nat)}, a ∈ insertDesc x l → a = x ∨ a ∈ l := by
  intro l
  induction l with
  | nil =>
    intro h
    simp only [insertDesc, List.mem_singleton] at h
    exact Or.inl h
  | cons y ys ih =>
    intro h
    by_cases hc : x.2 ≤ y.2
    · rw [insertDesc, if_pos hc] at h
      rcases List.mem_cons.mp h with h1 | h1
      · exact Or.inr (h1 ▸ List.mem_cons_self y ys)
      · rcases ih h1 with h2 | h2
        · exact Or.inl h2
        · exact Or.inr (List.mem_cons_of_mem y h2)
    · rw [insertDesc, if_neg hc] at h
      rcases List.mem_cons.mp h with h1 | h1
      · exact Or.inl h1
      · exact Or.inr h1

theorem sortedDesc_insertDesc {l : List (String × Nat)}
    (hs : SortedDesc l) (x : String × Nat) : SortedDesc (insertDesc x l) := by
  induction l with
  | nil =>
    rw [SortedDesc, insertDesc]
    exact List.pairwise_singleton _ _
  | cons y ys ih =>
    have hy : ∀ b ∈ ys, b.2 ≤ y.2 := (List.pairwise_cons.mp hs).1
    have hys : SortedDesc ys := (List.pairwise_cons.mp hs).2
    by_cases hc : x.2 ≤ y.2
    · rw [SortedDesc, insertDesc, if_pos hc, List.pairwise_cons]
      refine ⟨?_, ih hys⟩
      intro b hb
      rcases mem_insertDesc hb with h1 | h1
      · exact h1 ▸ hc
      · exact hy b h1
    · rw [SortedDesc, insertDesc, if_neg hc, List.pairwise_cons]
      refine ⟨?_, hs⟩
      intro b hb
      rcases List.mem_cons.mp hb with h1 | h1
      · rw [h1]; omega
      · have := hy b h1; omega

theorem sortedDesc_sortPairsDescAux :
    ∀ (l acc : List (String × Nat)), SortedDesc acc →
      SortedDesc (l.foldl (fun acc x => insertDesc x acc) acc) := by
  intro l
  induction l with
  | nil => intro acc h; exact h
  | cons x xs ih =>
    intro acc h
    rw [List.foldl_cons]
    exact ih _ (sortedDesc_insertDesc h x)

theorem sortedDesc_sortPairsDesc (l : List (String × Nat)) :
    SortedDesc (sortPairsDesc l) := by
  rw [sortPairsDesc]
  exact sortedDesc_sortPairsDescAux l [] List.Pairwise.nil

theorem filter_insertDesc_of_ne {x : String × Nat} {c : Nat} (hx : x.2 ≠ c) :
    ∀ (l : List (String × Nat)),
      (insertDesc x l).filter (fun e => e.2 = c) = l.filter (fun e => e.2 = c) := by
  intro l
  induction l with
  | nil => simp [insertDesc, hx]
  | cons y ys ih =>
    by_cases hc : x.2 ≤ y.2
    · rw [insertDesc, if_pos hc, List.filter_cons, List.filter_cons, ih]
    · rw [insertDesc, if_neg hc, List.filter_cons]
      simp [hx]

theorem filter_insertDesc_of_eq {x : String × Nat} {c : Nat} (hx : x.2 = c) :
    ∀ {l : List (String × Nat)}, SortedDesc l →
      (insertDesc x l).filter (fun e => e.2 = c) =
        l.filter (fun e => e.2 = c) ++ [x] := by
  intro l
  induction l with
  | nil => simp [insertDesc, hx]
  | cons y ys ih =>
    intro hs
    have hy : ∀ b ∈ ys, b.2 ≤ y.2 := (List.pairwise_cons.mp hs).1
    have hys : SortedDesc ys := (List.pairwise_cons.mp hs).2
    by_cases hc : x.2 ≤ y.2
    · rw [insertDesc, if_pos hc, List.filter_cons, List.filter_cons, ih hys]
      by_cases hyc : y.2 = c
      · simp [hyc]
      · simp [hyc]
    · have hlt : y.2 < x.2 := Nat.lt_of_not_le hc
      have hnone : ∀ b ∈ y :: ys, ¬ b.2 = c := by
        intro b hb
        rcases List.mem_cons.mp hb with h1 | h1
        · rw [h1]; omega
        · have := hy b h1; omega
      have hfil : (y :: ys).filter (fun e => e.2 = c) = [] := by
        rw [List.filter_eq_nil_iff]
        intro b hb
        simpa using hnone b hb
      rw [insertDesc, if_neg hc, List.filter_cons, hfil]
      simp [hx]

theorem filter_sortFoldAux (c : Nat) :
    ∀ (l acc : List (String × Nat)), SortedDesc acc →
      (l.foldl (fun acc x => insertDesc x acc) acc).filter (fun e => e.2 = c) =
        acc.filter (fun e => e.2 = c) ++ l.filter (fun e => e.2 = c) := by
  intro l
  induction l with
  | nil => intro acc h; simp
  | cons x xs ih =>
    intro acc h
    rw [List.foldl_cons, ih _ (sortedDesc_insertDesc h x)]
    by_cases hx : x.2 = c
    · rw [filter_insertDesc_of_eq hx h, List.filter_cons]
      simp [hx]
    · rw [filter_insertDesc_of_ne hx, List.filter_cons]
      simp [hx]

theorem filter_sortPairsDesc (c : Nat) (l : List (String × Nat)) :
    (sortPairsDesc l).filter (fun e => e.2 = c) = l.filter (fun e => e.2 = c) := by
  rw [sortPairsDesc, filter_sortFoldAux c l [] List.Pairwise.nil]
  rfl

theorem validateCreate_ne_nil_of_normalize_nil {b : CreateBody}
    (h : normalize b.data = []) : validateCreate b ≠ [] := by
  intro hc
  unfold validateCreate at hc
  rw [h] at hc
  rcases List.append_eq_nil.mp hc with ⟨-, h2⟩
  simp at h2

/-- Claim C1, counterexample: with the per-poll uniqueness cookie present,
the POST /result/:id/ handler of src/app.js line 154 redirects to the
voting form view /form/:id/?is_voted=1, which is not the result view
/result/:id/ that the claim names as the redirect target. -/
theorem result_post_already_voted_redirect_target_is_form_not_result :
    postResult [("abc", samplePoll)] "abc" ⟨["abc"], "A"⟩ =
      some ⟨[("abc", samplePoll)], [],
        Response.redirect "/form/abc/?is_voted=1"⟩ ∧
    Response.redirect "/form/abc/?is_voted=1" ≠
      Response.redirect "/result/abc/?is_voted=1" := by
  decide

/-- Claim C1 (amended): for every POST /result/:id/ request whose per-poll
uniqueness cookie is already present, the handler rejects the vote and
redirects to the voting form view with is_voted=1, leaving the store
untouched and setting no cookie. -/
theorem result_post_already_voted_redirects_to_form
    (store : Store) (id : String) (req : ResultRequest)
    (h : isVoted req.cookies id = true) :
    postResult store id req =
      some ⟨store, [], Response.redirect ("/form/" ++ id ++ "/?is_voted=1")⟩ := by
  simp [postResult, h]

/-- Witness for the amended claim C1 at a concrete already-voted request. -/
theorem result_post_already_voted_redirects_to_form_witness :
    isVoted ["abc"] "abc" = true ∧
    postResult [("abc", samplePoll)] "abc" ⟨["abc"], "A"⟩ =
      some ⟨[("abc", samplePoll)], [],
        Response.redirect ("/form/" ++ "abc" ++ "/?is_voted=1")⟩ :=
  ⟨by decide,
    result_post_already_voted_redirects_to_form
      [("abc", samplePoll)] "abc" ⟨["abc"], "A"⟩ (by decide)⟩

/-- Claim C2: a POST /create whose option list is empty after
normalization fails validation (ValidationError: nonempty error-message
list), takes the error branch of src/app.js lines 98-101 (store messages
and body in the session, redirect back), and performs no file write. -/
theorem create_empty_options_validation_error_no_write
    (b : CreateBody) (id : String) (now : Nat)
    (h : normalize b.data = []) :
    validateCreate b ≠ [] ∧
    postCreate b id now =
      [CreateEvent.setSessionError (validateCreate b) b,
       CreateEvent.redirect "/#container"] ∧
    (postCreate b id now).filter isWriteEvent = [] := by
  have hv := validateCreate_ne_nil_of_normalize_nil h
  have htr : postCreate b id now =
      [CreateEvent.setSessionError (validateCreate b) b,
       CreateEvent.redirect "/#container"] := by
    simp only [postCreate]
    rw [if_neg hv]
  refine ⟨hv, htr, ?_⟩
  rw [htr]
  rfl

/-- Witness for claim C2 at a concrete submission of only blank lines. -/
theorem create_empty_options_validation_error_no_write_witness :
    normalize "\n\n" = [] ∧
    (postCreate ⟨"t", "\n\n"⟩ "x" 0).filter isWriteEvent = [] :=
  ⟨by decide,
    (create_empty_options_validation_error_no_write ⟨"t", "\n\n"⟩ "x" 0
      (by decide)).2.2⟩

/-- Claim C3: every poll document written by POST /create stores as data
the submitted newline-separated options with blank lines removed and
duplicates removed keeping the first occurrence (the spec-side
specNormalize), and on the concrete input "A\nA\nB\n\n" the normalization
of src/app.js lines 112-114 yields ["A", "B"]. -/
theorem create_stores_normalized_options :
    (∀ (b : CreateBody) (id : String) (now : Nat) (pth : String) (poll : Poll),
      CreateEvent.writeFile pth poll ∈ postCreate b id now →
        poll.data = specNormalize b.data) ∧
    normalize "A\nA\nB\n\n" = ["A", "B"] := by
  constructor
  · intro b id now pth poll hmem
    simp only [postCreate] at hmem
    by_cases hv : validateCreate b = []
    · rw [if_pos hv] at hmem
      simp only [List.mem_cons, List.not_mem_nil, or_false] at hmem
      rcases hmem with h | h | h | h
      · exact CreateEvent.noConfusion h
      · exact CreateEvent.noConfusion h
      · injection h with h1 h2
        rw [h2]
        exact normalize_eq_specNormalize b.data
      · exact CreateEvent.noConfusion h
    · rw [if_neg hv] at hmem
      simp only [List.mem_cons, List.not_mem_nil, or_false] at hmem
      rcases hmem with h | h
      · exact CreateEvent.noConfusion h
      · exact CreateEvent.noConfusion h
  · decide

/-- Witness for claim C3 at the concrete input of the spec example. -/
theorem create_stores_normalized_options_witness :
    CreateEvent.writeFile (filePath "x")
        ⟨"t", ["A", "B"], 0, []⟩ ∈ postCreate ⟨"t", "A\nA\nB\n\n"⟩ "x" 0 ∧
    (Poll.mk "t" ["A", "B"] 0 []).data = specNormalize "A\nA\nB\n\n" :=
  ⟨by decide,
    create_stores_normalized_options.1 ⟨"t", "A\nA\nB\n\n"⟩ "x" 0
      (filePath "x") ⟨"t", ["A", "B"], 0, []⟩ (by decide)⟩

/-- Claim C4: sortData returns the option/count rows in descending count
order, ties broken stably by the option's original position (for every
count class, the rows appear in the same order as in countPairs); on
tallies A:2, B:5, C:2 over original order [A, B, C] it yields
[(B, 5), (A, 2), (C, 2)]. -/
theorem sortData_sorted_desc_stable :
    (∀ p : Poll, SortedDesc (sortData p) ∧
      ∀ c : Nat, (sortData p).filter (fun e => e.2 = c) =
        (countPairs p).filter (fun e => e.2 = c)) ∧
    sortData samplePoll = [("B", 5), ("A", 2), ("C", 2)] := by
  refine ⟨fun p => ⟨sortedDesc_sortPairsDesc _, fun c => filter_sortPairsDesc c _⟩, ?_⟩
  decide

/-- Claim C5: vote(poll, key) leaves the poll unchanged (no error) when
the key is not one of the options in data, and for a known key increments
exactly that key's tally by one, leaving data and every other tally
unchanged; an absent entry reads as zero, so it is created at count 1. -/
theorem vote_unknown_ignored_known_incremented (p : Poll) (k : String) :
    (k ∉ p.data → vote p k = p) ∧
    (k ∈ p.data →
      (vote p k).data = p.data ∧
      lookupTally (vote p k).votes k = lookupTally p.votes k + 1 ∧
      ∀ k2, k2 ≠ k →
        lookupTally (vote p k).votes k2 = lookupTally p.votes k2) := by
  constructor
  · intro h
    unfold vote
    rw [if_neg h]
  · intro h
    unfold vote
    rw [if_pos h]
    exact ⟨rfl, lookupTally_incrTally_self _ _,
      fun k2 hk => lookupTally_incrTally_other _ hk⟩

/-- Witness for claim C5: an unknown key is ignored on samplePoll and a
known key's tally goes up by exactly one. -/
theorem vote_unknown_ignored_known_incremented_witness :
    vote samplePoll "Z" = samplePoll ∧
    lookupTally (vote samplePoll "A").votes "A" =
      lookupTally samplePoll.votes "A" + 1 :=
  ⟨(vote_unknown_ignored_known_incremented samplePoll "Z").1 (by decide),
    ((vote_unknown_ignored_known_incremented samplePoll "A").2 (by decide)).2.1⟩

/-- Claim C6: when the per-poll uniqueness cookie is present, the POST
/result/:id/ handler returns the store exactly as it was (no poll file
changed, hence no tally incremented; vote is never reached in src/app.js
lines 153-154) and sets no cookie. -/
theorem result_post_already_voted_frame
    (store : Store) (id : String) (req : ResultRequest)
    (h : isVoted req.cookies id = true) :
    (postResult store id req).map ResultOutcome.store = some store ∧
    (postResult store id req).map ResultOutcome.setCookies = some [] := by
  simp [postResult, h]

/-- Witness for claim C6 at a concrete already-voted request. -/
theorem result_post_already_voted_frame_witness :
    (postResult [("abc", samplePoll)] "abc" ⟨["abc"], "B"⟩).map
        ResultOutcome.store = some [("abc", samplePoll)] ∧
    (postResult [("abc", samplePoll)] "abc" ⟨["abc"], "B"⟩).map
        ResultOutcome.setCookies = some [] :=
  result_post_already_voted_frame [("abc", samplePoll)] "abc"
    ⟨["abc"], "B"⟩ (by decide)

/-- Claim C7: loading a poll id whose derived file path has no file on
disk fails with NotFound, not with a poll or any other error. -/
theorem load_missing_file_not_found (fs : FileSys) (id : String)
    (h : readFile fs (filePath id) = none) :
    load fs id = Except.error LoadError.notFound := by
  unfold load
  rw [h]

/-- Witness for claim C7 on the empty filesystem. -/
theorem load_missing_file_not_found_witness :
    readFile ([] : FileSys) (filePath "x") = none ∧
    load ([] : FileSys) "x" = Except.error LoadError.notFound :=
  ⟨rfl, load_missing_file_not_found [] "x" rfl⟩

/-- Claim C8: every poll document written by create has pairwise-distinct
options and all tally keys among its options, and vote preserves that
invariant. -/
theorem poll_invariants_preserved :
    (∀ (b : CreateBody) (id : String) (now : Nat) (pth : String) (poll : Poll),
      CreateEvent.writeFile pth poll ∈ postCreate b id now → PollInv poll) ∧
    (∀ (p : Poll) (k : String), PollInv p → PollInv (vote p k)) := by
  constructor
  · intro b id now pth poll hmem
    simp only [postCreate] at hmem
    by_cases hv : validateCreate b = []
    · rw [if_pos hv] at hmem
      simp only [List.mem_cons, List.not_mem_nil, or_false] at hmem
      rcases hmem with h | h | h | h
      · exact CreateEvent.noConfusion h
      · exact CreateEvent.noConfusion h
      · injection h with h1 h2
        rw [h2]
        refine ⟨normalize_nodup b.data, ?_⟩
        intro e he
        cases he
      · exact CreateEvent.noConfusion h
    · rw [if_neg hv] at hmem
      simp only [List.mem_cons, List.not_mem_nil, or_false] at hmem
      rcases hmem with h | h
      · exact CreateEvent.noConfusion h
      · exact CreateEvent.noConfusion h
  · intro p k hinv
    obtain ⟨hnd, hkeys⟩ := hinv
    unfold vote
    by_cases h : k ∈ p.data
    · rw [if_pos h]
      refine ⟨hnd, ?_⟩
      intro e he
      rcases mem_incrTally he with h1 | ⟨n, h2⟩
      · rw [h1]; exact h
      · exact hkeys (e.1, n) h2
    · rw [if_neg h]
      exact ⟨hnd, hkeys⟩

/-- Witness for claim C8 on a freshly written poll and a concrete vote. -/
theorem poll_invariants_preserved_witness :
    PollInv samplePoll ∧ PollInv (vote samplePoll "A") ∧
    PollInv (Poll.mk "t" ["A", "B"] 0 []) :=
  ⟨by decide,
    poll_invariants_preserved.2 samplePoll "A" (by decide),
    poll_invariants_preserved.1 ⟨"t", "A\nA\nB\n\n"⟩ "x" 0
      (filePath "x") ⟨"t", ["A", "B"], 0, []⟩ (by decide)⟩

/-- Claim C9: a POST /create that passes validation clears the session
(req.session = null in src/app.js line 103) before the directory creation
and the poll-file write, so whatever error messages and resubmitted body a
prior failed submission left there are gone. -/
theorem create_success_clears_session_before_write
    (b : CreateBody) (id : String) (now : Nat)
    (h : validateCreate b = []) :
    postCreate b id now =
      [CreateEvent.clearSession,
       CreateEvent.mkdirData dirPath,
       CreateEvent.writeFile (filePath id) ⟨b.name, normalize b.data, now, []⟩,
       CreateEvent.redirect ("/form/" ++ id ++ "/")] ∧
    ∀ s0, sessionAfter (postCreate b id now) s0 = none := by
  have htr : postCreate b id now =
      [CreateEvent.clearSession,
       CreateEvent.mkdirData dirPath,
       CreateEvent.writeFile (filePath id) ⟨b.name, normalize b.data, now, []⟩,
       CreateEvent.redirect ("/form/" ++ id ++ "/")] := by
    simp only [postCreate]
    rw [if_pos h]
  refine ⟨htr, ?_⟩
  intro s0
  rw [htr]
  rfl

/-- Witness for claim C9 at a concrete valid submission with a stale
session. -/
theorem create_success_clears_session_before_write_witness :
    validateCreate ⟨"t", "A\nB"⟩ = [] ∧
    sessionAfter (postCreate ⟨"t", "A\nB"⟩ "x" 7)
      (some ⟨["old error"], ⟨"old", "old"⟩⟩) = none :=
  ⟨by decide,
    (create_success_clears_session_before_write ⟨"t", "A\nB"⟩ "x" 7
      (by decide)).2 (some ⟨["old error"], ⟨"old", "old"⟩⟩)⟩

/-- Claim C10: a POST /create whose validation yields at least one error
message redirects back before any filesystem operation — the handler
performs only the session stores and the redirect, no mkdir and no file
write — and the session afterwards holds exactly the error messages and
the submitted body. -/
theorem create_validation_failure_redirects_before_fs
    (b : CreateBody) (id : String) (now : Nat)
    (h : validateCreate b ≠ []) :
    postCreate b id now =
      [CreateEvent.setSessionError (validateCreate b) b,
       CreateEvent.redirect "/#container"] ∧
    (postCreate b id now).filter isFsEvent = [] ∧
    ∀ s0, sessionAfter (postCreate b id now) s0 =
      some ⟨validateCreate b, b⟩ := by
  have htr : postCreate b id now =
      [CreateEvent.setSessionError (validateCreate b) b,
       CreateEvent.redirect "/#container"] := by
    simp only [postCreate]
    rw [if_neg h]
  refine ⟨htr, ?_, ?_⟩
  · rw [htr]
    rfl
  · intro s0
    rw [htr]
    rfl

/-- Witness for claim C10 at a concrete submission with a missing name. -/
theorem create_validation_failure_redirects_before_fs_witness :
    validateCreate ⟨"", "A"⟩ ≠ [] ∧
    (postCreate ⟨"", "A"⟩ "x" 0).filter isFsEvent = [] ∧
    sessionAfter (postCreate ⟨"", "A"⟩ "x" 0) none =
      some ⟨validateCreate ⟨"", "A"⟩, ⟨"", "A"⟩⟩ :=
  ⟨by decide,
    (create_validation_failure_redirects_before_fs ⟨"", "A"⟩ "x" 0
      (by decide)).2.1,
    (create_validation_failure_redirects_before_fs ⟨"", "A"⟩ "x" 0
      (by decide)).2.2 none⟩

end Syukei
